import Mathlib

/-!
Verification of `scripts/clustering.py`: a shallow embedding in Lean 4 of the
pipeline's pure decision logic (corpus loading and deduplication, the corpus
fingerprint, embedding-cache validity, stage cache gating, k-selection,
cluster summarization, resumable LLM labeling, the summary completeness
check, keyword extraction from LLM responses, and output assembly), together
with theorems settling the specification's claims about those functions.
External numeric libraries (`umap`, `sklearn`, `hdbscan`) and the network
services are modelled as oracle parameters; file I/O is modelled as explicit
optional on-disk state threaded through the functions.
-/

namespace Clustering

/-- One raw item of a source JSON document, after Python's
`(item.get("title") or "")` defaulting: each field is a plain string
(absent or null keys become `""`).  This is the item shape consumed by the
item loop of `load_records`. -/
structure RawItem where
  title : String
  link : String
  date : String
  source : String
 deriving Repr, DecidableEq

/-- Embeds the `Record` dataclass of `clustering.py`. -/
structure Record where
  id : Nat
  title : String
  link : String
  date : String
  source : String
  dup_count : Nat
 deriving Repr, DecidableEq

/-- Default record, used only to make positional indexing total; all call
sites index within bounds (the pipeline keeps `len(labels) = len(records)`). -/
def Record.dummy : Record := ⟨0, "", "", "", "", 1⟩

/-- One step of `load_records`' duplicate handling: increment `dup_count` of
the first already-seen record with the given title (the Python
`seen[title].dup_count += 1` on an insertion-ordered dict, where titles in
`seen` are unique). -/
def bump_dup : List Record → String → List Record
  | [], _ => []
  | r :: rs, t =>
    if r.title == t then { r with dup_count := r.dup_count + 1 } :: rs
    else r :: bump_dup rs t

/-- One iteration of the item loop in `load_records` (with `limit = 0`, so
the early-exit branches never fire): strip the title, drop empty titles,
count duplicates, otherwise append a fresh record with the next dense id.
State: (insertion-ordered seen records, next id).  Python's `str.strip` is
modelled by `String.trim`. -/
def load_step (st : List Record × Nat) (item : RawItem) : List Record × Nat :=
  let t := item.title.trim
  if t == "" then st
  else if st.1.any (fun r => r.title == t) then (bump_dup st.1 t, st.2)
  else (st.1 ++ [{ id := st.2, title := t, link := item.link.trim, date := item.date.trim,
                   source := item.source, dup_count := 1 }], st.2 + 1)

/-- Embeds `load_records` with `limit = 0`: `items` is the concatenation, in
processing order, of the items of every readable source file (unreadable
files are skipped by the source with `continue`, so they are simply absent
here).  Returns `list(seen.values())`: the records in first-seen order. -/
def load_records (items : List RawItem) : List Record :=
  (items.foldl load_step ([], 0)).1

/-- One step of the first-seen dedup of non-empty stripped titles. -/
def distinct_step (acc : List String) (it : RawItem) : List String :=
  let t := it.title.trim
  if t == "" then acc
  else if acc.any (fun x => x == t) then acc
  else acc ++ [t]

/-- The distinct non-empty (post-strip) titles of `items`, in first-seen
order; its length is the `D` of the dedup claim. -/
def distinct_titles (items : List RawItem) : List String :=
  items.foldl distinct_step []

/-! ### Corpus fingerprint (`sha256_of_titles`) -/

/-- UTF-8 encoding of one character (the byte values of Python's
`str.encode("utf-8")`, as `Nat < 256`). -/
def utf8Bytes (c : Char) : List Nat :=
  if c.toNat < 128 then [c.toNat]
  else if c.toNat < 2048 then
    [192 + c.toNat / 64, 128 + c.toNat % 64]
  else if c.toNat < 65536 then
    [224 + c.toNat / 4096, 128 + c.toNat / 64 % 64, 128 + c.toNat % 64]
  else
    [240 + c.toNat / 262144, 128 + c.toNat / 4096 % 64, 128 + c.toNat / 64 % 64,
     128 + c.toNat % 64]

/-- UTF-8 byte sequence of a character list. -/
def encodeChars : List Char → List Nat
  | [] => []
  | c :: cs => utf8Bytes c ++ encodeChars cs

/-- UTF-8 byte sequence of a string. -/
def strBytes (s : String) : List Nat := encodeChars s.data

/-- The byte stream that `sha256_of_titles` feeds to the SHA-256 digest:
for each title, `h.update(title.encode("utf-8"))` then `h.update(b"\n")`
(newline byte 10 after every title). -/
def fingerprint_input : List String → List Nat
  | [] => []
  | t :: ts => strBytes t ++ 10 :: fingerprint_input ts

/-- Truncation to a 32-bit word. -/
def w32 (n : Nat) : Nat := n % 4294967296

/-- Right rotation of a 32-bit word by `k` bits (`0 < k < 32`, `x < 2^32`). -/
def rotr32 (x k : Nat) : Nat := x % 2 ^ k * 2 ^ (32 - k) + x / 2 ^ k

def sha_ch (e f g : Nat) : Nat := (e &&& f) ^^^ ((4294967295 ^^^ e) &&& g)

def sha_maj (a b c : Nat) : Nat := (a &&& b) ^^^ (a &&& c) ^^^ (b &&& c)

def sha_bsig0 (x : Nat) : Nat := rotr32 x 2 ^^^ rotr32 x 13 ^^^ rotr32 x 22

def sha_bsig1 (x : Nat) : Nat := rotr32 x 6 ^^^ rotr32 x 11 ^^^ rotr32 x 25

def sha_ssig0 (x : Nat) : Nat := rotr32 x 7 ^^^ rotr32 x 18 ^^^ x / 8

def sha_ssig1 (x : Nat) : Nat := rotr32 x 17 ^^^ rotr32 x 19 ^^^ x / 1024

/-- The 64 SHA-256 round constants (FIPS 180-4, in decimal). -/
def shaK : List Nat :=
  [1116352408, 1899447441, 3049323471, 3921009573, 961987163, 1508970993,
   2453635748, 2870763221, 3624381080, 310598401, 607225278, 1426881987,
   1925078388, 2162078206, 2614888103, 3248222580, 3835390401, 4022224774,
   264347078, 604807628, 770255983, 1249150122, 1555081692, 1996064986,
   2554220882, 2821834349, 2952996808, 3210313671, 3336571891, 3584528711,
   113926993, 338241895, 666307205, 773529912, 1294757372, 1396182291,
   1695183700, 1986661051, 2177026350, 2456956037, 2730485921, 2820302411,
   3259730800, 3345764771, 3516065817, 3600352804, 4094571909, 275423344,
   430227734, 506948616, 659060556, 883997877, 958139571, 1322822218,
   1537002063, 1747873779, 1955562222, 2024104815, 2227730452, 2361852424,
   2428436474, 2756734187, 3204031479, 3329325298]

/-- The SHA-256 initial hash values (FIPS 180-4, in decimal). -/
def shaH0 : List Nat :=
  [1779033703, 3144134277, 1013904242, 2773480762,
   1359893119, 2600822924, 528734635, 1541459225]

/-- Big-endian 32-bit word `i` of a 64-byte block. -/
def sha_word (b : List Nat) (i : Nat) : Nat :=
  b.getD (4 * i) 0 * 16777216 + b.getD (4 * i + 1) 0 * 65536 +
    b.getD (4 * i + 2) 0 * 256 + b.getD (4 * i + 3) 0

/-- Message schedule: the 16 block words extended to 64. -/
def sha_schedule (block : List Nat) : List Nat :=
  (List.range 48).foldl (fun w _ =>
      w ++ [w32 (sha_ssig1 (w.getD (w.length - 2) 0) + w.getD (w.length - 7) 0 +
                 sha_ssig0 (w.getD (w.length - 15) 0) + w.getD (w.length - 16) 0)])
    ((List.range 16).map (sha_word block))

/-- One SHA-256 compression round; `wk = (schedule word, round constant)`. -/
def sha_round (st : List Nat) (wk : Nat × Nat) : List Nat :=
  let a := st.getD 0 0
  let b := st.getD 1 0
  let c := st.getD 2 0
  let d := st.getD 3 0
  let e := st.getD 4 0
  let f := st.getD 5 0
  let g := st.getD 6 0
  let h := st.getD 7 0
  let t1 := w32 (h + sha_bsig1 e + sha_ch e f g + wk.2 + wk.1)
  let t2 := w32 (sha_bsig0 a + sha_maj a b c)
  [w32 (t1 + t2), a, b, c, w32 (d + t1), e, f, g]

/-- Compress one 64-byte block into the running hash state. -/
def sha_compress (hs : List Nat) (block : List Nat) : List Nat :=
  let out := ((sha_schedule block).zip shaK).foldl sha_round hs
  (hs.zip out).map (fun p => w32 (p.1 + p.2))

/-- SHA-256 padding: `0x80`, zeros to 56 mod 64, 64-bit big-endian bit length. -/
def sha_pad (msg : List Nat) : List Nat :=
  msg ++ [128] ++ List.replicate ((119 - msg.length % 64) % 64) 0 ++
    [8 * msg.length / 72057594037927936 % 256, 8 * msg.length / 281474976710656 % 256,
     8 * msg.length / 1099511627776 % 256, 8 * msg.length / 4294967296 % 256,
     8 * msg.length / 16777216 % 256, 8 * msg.length / 65536 % 256,
     8 * msg.length / 256 % 256, 8 * msg.length % 256]

/-- Split into 64-byte chunks (fuel-based structural recursion; the fuel
`l.length` always suffices since each step consumes 64 bytes). -/
def chunks64_fuel : Nat → List Nat → List (List Nat)
  | 0, _ => []
  | _, [] => []
  | fuel + 1, l => l.take 64 :: chunks64_fuel fuel (l.drop 64)

def chunks64 (l : List Nat) : List (List Nat) := chunks64_fuel l.length l

def hexChar (n : Nat) : Char := ("0123456789abcdef".data).getD n '0'

/-- Lower-case hex rendering of a 32-bit word, 8 digits, big-endian. -/
def hexWord (n : Nat) : List Char :=
  (List.range 8).map (fun i => hexChar (n / 16 ^ (7 - i) % 16))

/-- SHA-256 of a byte sequence, as the lower-case hex string that Python's
`hashlib.sha256(...).hexdigest()` returns. -/
def sha256_hex (msg : List Nat) : String :=
  ⟨((chunks64 (sha_pad msg)).foldl sha_compress shaH0).foldl
      (fun acc h => acc ++ hexWord h) []⟩

/-- Embeds `sha256_of_titles`: the hex digest of the newline-delimited
UTF-8 title stream. -/
def sha256_of_titles (titles : List String) : String :=
  sha256_hex (fingerprint_input titles)

/-- No title of the list contains a newline character. -/
def newline_free (l : List String) : Bool :=
  l.all fun t => t.data.all fun c => !(c == '\n')

/-! ### Embedding cache stage (`get_embeddings`) -/

/-- The metadata document written next to the cached embedding matrix. -/
structure EmbMeta where
  year : Int
  model : String
  ollama_url : String
  corpus_hash : String
  count : Nat
 deriving Repr, DecidableEq

/-- The on-disk state the embedding stage reads: the embedding matrix file
and the metadata file.  `metaFile = none` models an absent file and
`metaFile = some none` a present but unreadable one (`json.loads` raising,
caught by the source's `except: pass`). -/
structure EmbedDisk where
  embFile : Option (List (List Int))
  metaFile : Option (Option EmbMeta)
 deriving Repr, DecidableEq

/-- Embeds `get_embeddings`.  `service` is the matrix the embedding service
would return for `titles` (the batched `ollama_embed_batch` calls, stacked
by `np.vstack`); the final `Bool` reports whether the service was invoked.
On a validated cache hit (both files present, no `--force-embed`, stored
`corpus_hash` and `model` equal to the current ones) the cached matrix and
the *saved* metadata are returned and the disk is untouched; otherwise the
service result is returned and both files are rewritten. -/
def get_embeddings (titles : List String) (year : Int) (model url : String)
    (force_embed : Bool) (disk : EmbedDisk) (service : List (List Int)) :
    List (List Int) × EmbMeta × EmbedDisk × Bool :=
  let corpus_hash := sha256_of_titles titles
  let meta : EmbMeta := ⟨year, model, url, corpus_hash, titles.length⟩
  let hit : Option (List (List Int) × EmbMeta) :=
    match disk.embFile, disk.metaFile, force_embed with
    | some emb, some (some saved), false =>
      if saved.corpus_hash = corpus_hash ∧ saved.model = model then some (emb, saved)
      else none
    | _, _, _ => none
  match hit with
  | some (emb, saved) => (emb, saved, disk, false)
  | none => (service, meta, ⟨some service, some (some meta)⟩, true)

/-- The result of `get_embeddings` when it recomputes: fresh metadata and
both cache files rewritten, service invoked. -/
def embed_recomputed (titles : List String) (year : Int) (model url : String)
    (service : List (List Int)) : List (List Int) × EmbMeta × EmbedDisk × Bool :=
  (service, ⟨year, model, url, sha256_of_titles titles, titles.length⟩,
   ⟨some service, some (some ⟨year, model, url, sha256_of_titles titles, titles.length⟩)⟩,
   true)

/-! ### Reduction- and clustering-stage cache gating (`main`) -/

/-- Embeds the cache gating that `main` applies to the Reduction Stage and
to each Clustering Stage (the `umap_2d`/`umap_10d` blocks and the three
label-array blocks, lines 456-478 and 499-528): `if args.resume and
path.exists() and not force: x = np.load(path) else: x = compute(...);
np.save(path, x)`.  `disk` is the stored artifact when the file exists (the
stored `.npy` files carry no metadata or provenance record of any kind);
`computed` is what the stage would compute from the current inputs.
Returns (value used, new disk state, whether the cached file was reused). -/
def stage_cache_step {α : Type} (resume force : Bool) (disk : Option α) (computed : α) :
    α × Option α × Bool :=
  match disk, resume && !force with
  | some v, true => (v, some v, true)
  | some _, false => (computed, some computed, false)
  | none, _ => (computed, some computed, false)

/-! ### Partition-based k-selection (`pick_kmeans_k`) -/

/-- One iteration of the candidate loop of `pick_kmeans_k` over
`n = len(embeddings)`.  `score k` models
`silhouette_score(embeddings, KMeans(n_clusters=k).fit_predict(embeddings))`:
`none` when scoring raises (the `except` branch, which scores the candidate
as `-1.0`).  Candidates with `k <= 1 or k >= len(embeddings)` are skipped.
A candidate replaces the best only under the strict `score > best_score`. -/
def pick_step (n : Nat) (score : Nat → Option ℚ) (best : Nat × ℚ) (k : Nat) : Nat × ℚ :=
  if k ≤ 1 ∨ n ≤ k then best
  else
    let s := (score k).getD (-1)
    if best.2 < s then (k, s) else best

/-- Embeds `pick_kmeans_k`: fold of the candidate loop starting from
`best_k = candidates[0]`, `best_score = -1.0`.  Python's `candidates[0]` on
the never-empty candidate list built by `cluster_kmeans` is modelled by
`headD 0`. -/
def pick_kmeans_k (n : Nat) (score : Nat → Option ℚ) (candidates : List Nat) : Nat :=
  (candidates.foldl (pick_step n score) (candidates.headD 0, -1)).1

/-- Score oracle for the C6 counterexample: candidate 7 scores successfully
with the worst possible silhouette value, every other candidate's scoring
raises. -/
def cex_score (k : Nat) : Option ℚ := if k = 7 then some (-1) else none

/-- Score oracle for the C6 witness. -/
def wit_score6 (k : Nat) : Option ℚ := if k = 8 then some 1 else none

/-- Score oracle for the C7 witness: identical best scores for 8 and 12. -/
def tie_score (k : Nat) : Option ℚ := if k = 8 ∨ k = 12 then some 1 else some 0

/-! ### Cluster summaries, resumable labeling, completeness
(`summarize_clusters`, `add_llm_summaries`, `is_summary_complete`) -/

/-- One cluster's summary entry (`{"cluster", "size", "sample_titles"}`,
plus the `llm_keywords` key once the Labeling stage has set it;
`llm_keywords = none` models the key being absent). -/
structure Summary where
  cluster : Int
  size : Nat
  sample_titles : List String
  llm_keywords : Option (List String)
 deriving Repr, DecidableEq

/-- One entry of a stored summary document as read back from disk:
`cluster` may be null/absent (`d.get("cluster") is None`) and
`llm_keywords` may be absent. -/
structure StoredItem where
  cluster : Option Int
  llm_keywords : Option (List String)
 deriving Repr, DecidableEq

/-- The record indices of one cluster, ascending: Python's
`[i for i, lbl in enumerate(labels) if lbl == cid]`, which is also the
entry `cluster_to_indices.get(cid, [])` built by `add_llm_summaries`. -/
def cluster_indices (labels : List Int) (cid : Int) : List Nat :=
  (List.range labels.length).filter (fun i => labels.getD i 0 = cid)

/-- The distinct cluster ids of a label array, ascending
(`sorted(set(labels))`). -/
def sorted_cluster_ids (labels : List Int) : List Int :=
  (labels.dedup).insertionSort (· ≤ ·)

/-- Embeds `summarize_clusters`: for every distinct label (ascending), the
cluster id, its size, and the first 5 member titles in record order,
mirroring the source's `if not indices: continue` guard. -/
def summarize_clusters (records : List Record) (labels : List Int) : List Summary :=
  (sorted_cluster_ids labels).filterMap (fun cid =>
    if (cluster_indices labels cid).isEmpty then none
    else some { cluster := cid, size := (cluster_indices labels cid).length,
                sample_titles := ((cluster_indices labels cid).take 5).map
                  (fun i => (records.getD i Record.dummy).title),
                llm_keywords := none })

/-- Overwrite-or-append on an association list: assignment into the Python
dict `existing` (insertion-ordered, later assignments overwrite). -/
def upsert (m : List (Int × List String)) (c : Int) (kw : List String) :
    List (Int × List String) :=
  match m with
  | [] => [(c, kw)]
  | (c0, kw0) :: rest => if c0 = c then (c, kw) :: rest else (c0, kw0) :: upsert rest c kw

/-- Embeds the `existing` dict built at the start of `add_llm_summaries`:
for a resumed run over a readable stored document, every stored entry that
has an `llm_keywords` key and a non-null cluster id.  (`stored = none`
covers both an absent and an unreadable file, which the source treats
identically: `existing = {}`.) -/
def existing_of (resume : Bool) (stored : Option (List StoredItem)) :
    List (Int × List String) :=
  if resume then
    match stored with
    | some items =>
      items.foldl (fun m it =>
        match it.cluster, it.llm_keywords with
        | some c, some kw => upsert m c kw
        | _, _ => m) []
    | none => []
  else []

/-- The per-cluster titles used as LLM prompt content: member titles in
record order, truncated to 200 (`titles[:200]`). -/
def prompt_titles (records : List Record) (labels : List Int) (cid : Int) : List String :=
  ((cluster_indices labels cid).map (fun i => (records.getD i Record.dummy).title)).take 200

/-- Does the `existing` dict hold a non-empty keyword list for `cid`
(Python's `if int(cid) in existing and existing[int(cid)]`)? -/
def has_stored_keywords (existing : List (Int × List String)) (cid : Int) : Bool :=
  !((existing.lookup cid).getD []).isEmpty

/-- One iteration of the per-cluster loop of `add_llm_summaries`: a cluster
with non-empty stored keywords keeps exactly those keywords and issues no
request; otherwise `ollama_keywords` is called — it returns `[]` *without a
request* when the title list is empty, and issues one language-model
request otherwise, whose (possibly failure-degraded, via the `except`
branch) keyword result `llm titles` is attached.  The accumulator carries
(summaries so far, cluster ids requested so far). -/
def add_llm_step (records : List Record) (labels : List Int)
    (existing : List (Int × List String)) (llm : List String → List String)
    (acc : List Summary × List Int) (s : Summary) : List Summary × List Int :=
  if has_stored_keywords existing s.cluster then
    (acc.1 ++ [{ s with llm_keywords := existing.lookup s.cluster }], acc.2)
  else if (prompt_titles records labels s.cluster).isEmpty then
    (acc.1 ++ [{ s with llm_keywords := some [] }], acc.2)
  else
    (acc.1 ++ [{ s with llm_keywords := some (llm (prompt_titles records labels s.cluster)) }],
     acc.2 ++ [s.cluster])

/-- Embeds `add_llm_summaries`: the per-cluster loop over `summaries`.
Returns the final summary list (the content persisted by the per-cluster
checkpoint writes and passed on to `write_outputs`) together with the
cluster ids for which a language-model request was issued, in order. -/
def add_llm_summaries (records : List Record) (labels : List Int)
    (summaries : List Summary) (resume : Bool) (stored : Option (List StoredItem))
    (llm : List String → List String) : List Summary × List Int :=
  summaries.foldl (add_llm_step records labels (existing_of resume stored) llm) ([], [])

/-- Boolean set equality of two cluster-id collections
(`set(...) == set(...)`). -/
def set_eq_int (a b : List Int) : Bool :=
  a.all (fun x => b.contains x) && b.all (fun x => a.contains x)

/-- Embeds `is_summary_complete`.  `stored = none` models a missing file,
an unreadable file, or a non-list JSON document (each returns `False`
identically in the source); an empty stored list returns `False`; the
stored cluster-id set must equal the label set; and with `require_llm`
every stored entry must have a truthy (non-empty, present) keyword list. -/
def is_summary_complete (stored : Option (List StoredItem)) (labels : List Int)
    (require_llm : Bool) : Bool :=
  match stored with
  | none => false
  | some data =>
    if data.isEmpty then false
    else if !(set_eq_int (data.filterMap StoredItem.cluster) labels) then false
    else if require_llm then
      data.all (fun d => !((d.llm_keywords.getD []).isEmpty))
    else true

/-! ### Keyword extraction (`extract_json_array`) -/

def backquote : Char := Char.ofNat 96

/-- One left-to-right pass of `re.sub(r"```json|```", "", text)` (this
pattern has no backslashes and works as written): at each position a
3-backquote run followed by `json` is removed as a whole, else a
3-backquote run is removed, else the character is kept and scanning
continues after the match. -/
def strip_fences_fuel : Nat → List Char → List Char
  | 0, _ => []
  | _ + 1, [] => []
  | fuel + 1, c :: cs =>
    if c == backquote then
      match cs with
      | c2 :: c3 :: rest =>
        if c2 == backquote && c3 == backquote then
          match rest with
          | 'j' :: 's' :: 'o' :: 'n' :: rest2 => strip_fences_fuel fuel rest2
          | _ => strip_fences_fuel fuel rest
        else c :: strip_fences_fuel fuel cs
      | _ => c :: strip_fences_fuel fuel cs
    else c :: strip_fences_fuel fuel cs

/-- Fuel-based entry point: every step consumes at least one character, so
`cs.length` fuel always suffices. -/
def strip_fences (cs : List Char) : List Char := strip_fences_fuel cs.length cs

def py_space (c : Char) : Bool :=
  c == ' ' || c == '\t' || c == '\n' || c == '\r' || c == Char.ofNat 11 || c == Char.ofNat 12

/-- Python's `str.strip()` (ASCII whitespace; sufficient for the texts in
scope). -/
def py_strip (cs : List Char) : List Char :=
  ((cs.dropWhile py_space).reverse.dropWhile py_space).reverse

def json_ws (c : Char) : Bool := c == ' ' || c == '\t' || c == '\n' || c == '\r'

def skip_ws (cs : List Char) : List Char := cs.dropWhile json_ws

/-- Parse one JSON string literal.  No escape sequences are handled: the
modelled inputs contain no backslash, so none occur; unescaped control
characters are rejected as `json.loads` rejects them. -/
def parse_jstring : List Char → Option (String × List Char)
  | '"' :: rest =>
    match rest.dropWhile (fun c => !(c == '"') && !decide (c.toNat < 32)) with
    | '"' :: tail => some (⟨rest.takeWhile (fun c => !(c == '"') && !decide (c.toNat < 32))⟩, tail)
    | _ => none
  | _ => none

/-- Parse the elements of a JSON array of string literals after the opening
`[`: fuel-based recursion, one unit of fuel per element (each element
consumes at least one character, so `length + 1` fuel always suffices).
Fails unless the whole remaining input is the array plus trailing
whitespace, as `json.loads` requires. -/
def parse_elems : Nat → List Char → List String → Option (List String)
  | 0, _, _ => none
  | fuel + 1, cs, acc =>
    match parse_jstring (skip_ws cs) with
    | none => none
    | some (s, rest) =>
      match skip_ws rest with
      | ',' :: rest2 => parse_elems fuel rest2 (acc ++ [s])
      | ']' :: rest2 => if (skip_ws rest2).isEmpty then some (acc ++ [s]) else none
      | _ => none

/-- Model of `json.loads(text)` composed with the source's
`isinstance(data, list)` check and string filtering, restricted to the JSON
fragment relevant here: the whole text must be one JSON array of string
literals (no escape sequences).  `none` models `json.loads` raising. -/
def json_parse_string_array (cs : List Char) : Option (List String) :=
  match skip_ws cs with
  | '[' :: rest =>
    match skip_ws rest with
    | ']' :: rest2 => if (skip_ws rest2).isEmpty then some [] else none
    | _ => parse_elems (cs.length + 1) rest []
  | _ => none

/-- Embeds `extract_json_array` on texts containing no backslash character:
the source's two `re.search` patterns are written with doubled backslashes
inside raw strings (`r"```json\\s*(\\[.*?\\])\\s*```"` and
`r"(\\[[^\\]]*\\])"`), so each one matches only a text containing a literal
backslash; on backslash-free text both searches fail, and the function
reduces to the fence-removal `re.sub`, then `strip()`, then a whole-text
`json.loads` whose list result is filtered to its string elements; any
parse failure yields `[]` through the `except` branch. -/
def extract_json_array (text : String) : List String :=
  (json_parse_string_array (py_strip (strip_fences text.data))).getD []

/-! ### Output assembly (`write_outputs`) -/

/-- One element of the per-record output document written by
`write_outputs`. -/
structure OutItem where
  id : Nat
  title : String
  link : String
  date : String
  source : String
  dup_count : Nat
  cluster : Int
  umap_x : ℚ
  umap_y : ℚ
 deriving Repr, DecidableEq

/-- Embeds the per-record loop of `write_outputs`: Python's
`zip(records, labels, umap_2d)` stops at the shortest input. -/
def write_outputs_items (records : List Record) (labels : List Int)
    (umap_2d : List (ℚ × ℚ)) : List OutItem :=
  (records.zip (labels.zip umap_2d)).map (fun p =>
    { id := p.1.id, title := p.1.title, link := p.1.link, date := p.1.date,
      source := p.1.source, dup_count := p.1.dup_count, cluster := p.2.1,
      umap_x := p.2.2.1, umap_y := p.2.2.2 })

/-! ## Theorems -/

theorem bump_dup_map_id (seen : List Record) (t : String) :
    (bump_dup seen t).map Record.id = seen.map Record.id := by
  induction seen with
  | nil => rfl
  | cons r rs ih =>
    by_cases h : r.title == t <;> simp [bump_dup, h, ih]

theorem bump_dup_map_title (seen : List Record) (t : String) :
    (bump_dup seen t).map Record.title = seen.map Record.title := by
  induction seen with
  | nil => rfl
  | cons r rs ih =>
    by_cases h : r.title == t <;> simp [bump_dup, h, ih]

theorem bump_dup_sum (seen : List Record) (t : String)
    (h : seen.any (fun r => r.title == t) = true) :
    ((bump_dup seen t).map Record.dup_count).sum
      = ((seen.map Record.dup_count).sum) + 1 := by
  induction seen with
  | nil => simp at h
  | cons r rs ih =>
    cases hr : r.title == t with
    | true =>
      simp [bump_dup, hr]
      omega
    | false =>
      rw [List.any_cons, hr, Bool.false_or] at h
      simp [bump_dup, hr, ih h]
      omega

/-- Invariant of the item loop of `load_records`: starting from a state
whose ids are exactly `0, …, n-1`, the loop keeps ids dense and in order,
its titles evolve exactly like the first-seen title dedup, and each
non-empty-title item contributes exactly one to the total `dup_count`. -/
theorem load_fold_characterization (items : List RawItem) :
    ∀ (seen : List Record) (n : Nat), n = seen.length →
    seen.map Record.id = List.range n →
    (items.foldl load_step (seen, n)).2 = (items.foldl load_step (seen, n)).1.length ∧
    (items.foldl load_step (seen, n)).1.map Record.id
      = List.range (items.foldl load_step (seen, n)).2 ∧
    (items.foldl load_step (seen, n)).1.map Record.title
      = items.foldl distinct_step (seen.map Record.title) ∧
    ((items.foldl load_step (seen, n)).1.map Record.dup_count).sum
      = (seen.map Record.dup_count).sum
        + (items.filter (fun it => !(it.title.trim == ""))).length := by
  induction items with
  | nil =>
    intro seen n hn hid
    simp [hn, hid]
  | cons it items ih =>
    intro seen n hn hid
    by_cases ht : it.title.trim == ""
    · have hstep : load_step (seen, n) it = (seen, n) := by
        simp [load_step, ht]
      have hd : distinct_step (seen.map Record.title) it = seen.map Record.title := by
        simp [distinct_step, ht]
      simpa [List.foldl_cons, hstep, hd, List.filter_cons, ht] using ih seen n hn hid
    · by_cases hdup : seen.any (fun r => r.title == it.title.trim)
      · have hstep : load_step (seen, n) it = (bump_dup seen it.title.trim, n) := by
          simp [load_step, ht, hdup]
        have hd : distinct_step (seen.map Record.title) it = seen.map Record.title := by
          have : (seen.map Record.title).any (fun x => x == it.title.trim) = true := by
            simpa [List.any_map, Function.comp] using hdup
          simp [distinct_step, ht, this]
        have hn' : n = (bump_dup seen it.title.trim).length := by
          have : (bump_dup seen it.title.trim).length = seen.length := by
            have := congrArg List.length (bump_dup_map_id seen it.title.trim)
            simpa using this
          omega
        have hid' : (bump_dup seen it.title.trim).map Record.id = List.range n := by
          rw [bump_dup_map_id]; exact hid
        obtain ⟨c1, c2, c3, c4⟩ := ih (bump_dup seen it.title.trim) n hn' hid'
        refine ⟨?_, ?_, ?_, ?_⟩
        · simpa [List.foldl_cons, hstep] using c1
        · simpa [List.foldl_cons, hstep] using c2
        · rw [List.foldl_cons, hstep, List.foldl_cons, hd]
          simpa [bump_dup_map_title] using c3
        · rw [List.foldl_cons, hstep]
          rw [c4, bump_dup_sum seen it.title.trim hdup]
          simp [List.filter_cons, ht]
          omega
      · have hstep : load_step (seen, n) it
            = (seen ++ [(⟨n, it.title.trim, it.link.trim, it.date.trim, it.source, 1⟩ : Record)],
               n + 1) := by
          simp [load_step, ht, hdup]
        have hd : distinct_step (seen.map Record.title) it
            = seen.map Record.title ++ [it.title.trim] := by
          have : (seen.map Record.title).any (fun x => x == it.title.trim) = false := by
            simpa [List.any_map, Function.comp] using hdup
          simp [distinct_step, ht, this]
        have hn' : n + 1
            = (seen ++ [(⟨n, it.title.trim, it.link.trim, it.date.trim, it.source, 1⟩ : Record)]).length := by
          simp [hn]
        have hid' : (seen ++ [(⟨n, it.title.trim, it.link.trim, it.date.trim, it.source, 1⟩ : Record)]).map Record.id
            = List.range (n + 1) := by
          simp [hid, List.range_succ]
        obtain ⟨c1, c2, c3, c4⟩ :=
          ih (seen ++ [(⟨n, it.title.trim, it.link.trim, it.date.trim, it.source, 1⟩ : Record)])
            (n + 1) hn' hid'
        refine ⟨?_, ?_, ?_, ?_⟩
        · simpa [List.foldl_cons, hstep] using c1
        · simpa [List.foldl_cons, hstep] using c2
        · rw [List.foldl_cons, hstep, List.foldl_cons, hd]
          simpa using c3
        · rw [List.foldl_cons, hstep]
          rw [c4]
          simp [List.filter_cons, ht]
          omega

/-- **C8**: with the limit disabled, the Loader returns exactly one record
per distinct non-empty (post-strip) title, with ids `0..D-1` assigned in
first-seen order (the record titles list the distinct titles in first-seen
order), and the `dup_count` total over the returned records equals the
number of raw items whose stripped title is non-empty. -/
theorem load_records_spec (items : List RawItem) :
    (load_records items).length = (distinct_titles items).length ∧
    (load_records items).map Record.id = List.range ((distinct_titles items).length) ∧
    (load_records items).map Record.title = distinct_titles items ∧
    ((load_records items).map Record.dup_count).sum
      = (items.filter (fun it => !(it.title.trim == ""))).length := by
  obtain ⟨c1, c2, c3, c4⟩ := load_fold_characterization items [] 0 rfl rfl
  have hlen : (load_records items).length = (distinct_titles items).length := by
    have := congrArg List.length c3
    simpa [load_records, distinct_titles] using this
  refine ⟨hlen, ?_, ?_, ?_⟩
  · have : (items.foldl load_step ([], 0)).2 = (distinct_titles items).length := by
      rw [c1]
      simpa [load_records] using hlen
    simpa [load_records, this] using c2
  · simpa [load_records, distinct_titles] using c3
  · simpa [load_records] using c4

theorem char_toNat_inj {c1 c2 : Char} (h : c1.toNat = c2.toNat) : c1 = c2 :=
  Char.ext (UInt32.ext h)

theorem utf8Bytes_ne_nil (c : Char) : utf8Bytes c ≠ [] := by
  unfold utf8Bytes
  split_ifs <;> simp

/-- The length of a UTF-8 encoding is determined by its first byte. -/
def utf8Len (b : Nat) : Nat :=
  if b < 128 then 1 else if b < 224 then 2 else if b < 240 then 3 else 4

theorem utf8Bytes_length (c : Char) :
    (utf8Bytes c).length = utf8Len ((utf8Bytes c).headD 0) := by
  unfold utf8Bytes
  split_ifs with h1 h2 h3 <;>
    (simp only [List.headD_cons, List.length_cons, List.length_nil]
     unfold utf8Len
     split_ifs <;> omega)

theorem utf8Bytes_inj {c1 c2 : Char} (h : utf8Bytes c1 = utf8Bytes c2) : c1 = c2 := by
  unfold utf8Bytes at h
  split_ifs at h with h1 h2 h3 h4 h5 h6 h7 h8 h9 h10 h11 h12 h13 h14 h15 <;>
    simp only [List.cons.injEq, and_true] at h <;>
    exact char_toNat_inj (by omega)

theorem encodeChars_inj : ∀ l1 l2 : List Char, encodeChars l1 = encodeChars l2 → l1 = l2 := by
  intro l1
  induction l1 with
  | nil =>
    intro l2 h
    cases l2 with
    | nil => rfl
    | cons c cs =>
      exfalso
      simp only [encodeChars] at h
      exact utf8Bytes_ne_nil c (List.append_eq_nil.mp h.symm).1
  | cons c cs ih =>
    intro l2 h
    cases l2 with
    | nil =>
      exfalso
      simp only [encodeChars] at h
      exact utf8Bytes_ne_nil c (List.append_eq_nil.mp h).1
    | cons d ds =>
      simp only [encodeChars] at h
      obtain ⟨x, xs, hx⟩ := List.exists_cons_of_ne_nil (utf8Bytes_ne_nil c)
      obtain ⟨y, ys, hy⟩ := List.exists_cons_of_ne_nil (utf8Bytes_ne_nil d)
      have hhead : x = y := by
        rw [hx, hy] at h
        simpa using congrArg (fun l => l.headD 0) h
      have hlen : (utf8Bytes c).length = (utf8Bytes d).length := by
        rw [utf8Bytes_length c, utf8Bytes_length d, hx, hy]
        simp [hhead]
      obtain ⟨henc, hrest⟩ := List.append_inj h hlen
      rw [utf8Bytes_inj henc, ih ds hrest]

theorem ten_not_mem_utf8Bytes {c : Char} (hc : c ≠ '\n') : 10 ∉ utf8Bytes c := by
  intro hmem
  unfold utf8Bytes at hmem
  split_ifs at hmem with h1 h2 h3 <;>
    simp only [List.mem_cons, List.not_mem_nil, or_false] at hmem
  · refine hc (char_toNat_inj ?_)
    have hn : Char.toNat '\n' = 10 := by decide
    omega
  all_goals omega

theorem ten_not_mem_encodeChars {l : List Char} (h : ∀ c ∈ l, c ≠ '\n') :
    10 ∉ encodeChars l := by
  induction l with
  | nil => simp [encodeChars]
  | cons c cs ih =>
    simp only [encodeChars, List.mem_append]
    rintro (hmem | hmem)
    · exact ten_not_mem_utf8Bytes (h c (by simp)) hmem
    · exact ih (fun x hx => h x (by simp [hx])) hmem

/-- Splitting at the first delimiter: if neither prefix contains the
delimiter byte 10, equal delimited streams have equal prefixes. -/
theorem delim_split : ∀ a b x y : List Nat, 10 ∉ a → 10 ∉ b →
    a ++ 10 :: x = b ++ 10 :: y → a = b ∧ x = y := by
  intro a
  induction a with
  | nil =>
    intro b x y _ hb h
    cases b with
    | nil => simpa using h
    | cons b0 bs =>
      exfalso
      simp only [List.nil_append, List.cons_append, List.cons.injEq] at h
      exact hb (by simp [h.1.symm])
  | cons a0 as ih =>
    intro b x y ha hb h
    cases b with
    | nil =>
      exfalso
      simp only [List.cons_append, List.nil_append, List.cons.injEq] at h
      exact ha (by simp [h.1])
    | cons b0 bs =>
      simp only [List.cons_append, List.cons.injEq] at h
      obtain ⟨h0, hrest⟩ := h
      obtain ⟨hab, hxy⟩ := ih bs x y (fun hm => ha (by simp [hm])) (fun hm => hb (by simp [hm])) hrest
      exact ⟨by rw [h0, hab], hxy⟩

theorem fingerprint_input_inj : ∀ l1 l2 : List String, newline_free l1 = true →
    newline_free l2 = true → fingerprint_input l1 = fingerprint_input l2 → l1 = l2 := by
  intro l1
  induction l1 with
  | nil =>
    intro l2 _ _ h
    cases l2 with
    | nil => rfl
    | cons t ts =>
      exfalso
      simp only [fingerprint_input] at h
      have := (List.append_eq_nil.mp h.symm).2
      simp at this
  | cons t ts ih =>
    intro l2 h1 h2 h
    cases l2 with
    | nil =>
      exfalso
      simp only [fingerprint_input] at h
      have := (List.append_eq_nil.mp h).2
      simp at this
    | cons u us =>
      simp only [fingerprint_input] at h
      simp only [newline_free, List.all_cons, Bool.and_eq_true, List.all_eq_true,
        Bool.not_eq_true', beq_eq_false_iff_ne, ne_eq] at h1 h2
      have hta : 10 ∉ strBytes t := ten_not_mem_encodeChars h1.1
      have hua : 10 ∉ strBytes u := ten_not_mem_encodeChars h2.1
      obtain ⟨hs, hrest⟩ := delim_split _ _ _ _ hta hua h
      have htitle : t = u := by
        have hd : t.data = u.data := encodeChars_inj _ _ hs
        cases t; cases u
        exact congrArg String.mk hd
      rw [htitle, ih us (by simp [newline_free, List.all_eq_true]; exact h1.2)
        (by simp [newline_free, List.all_eq_true]; exact h2.2) hrest]

/-- **C4** counterexample: the corpora `["a\nb"]` and `["a", "b"]` differ in
size (and in every title's text), yet their fingerprints are equal, because
the newline delimiter of `sha256_of_titles` also occurs inside the title, so
both corpora feed the identical byte stream to the digest. -/
theorem fingerprint_collision_cex :
    sha256_of_titles ["a\nb"] = sha256_of_titles ["a", "b"] ∧
    (["a\nb"] : List String).length ≠ (["a", "b"] : List String).length := by
  constructor
  · have h : fingerprint_input ["a\nb"] = fingerprint_input ["a", "b"] := by decide
    unfold sha256_of_titles
    exact congrArg sha256_hex h
  · decide

/-- **C4** (amended): the corpus fingerprint is a deterministic function of
the ordered title sequence; and on corpora whose titles contain no newline
character, the byte stream fed to SHA-256 is injective in the ordered title
sequence, so any change in size, order, or title text changes the hashed
input (and hence the fingerprint, up to SHA-256 collisions). -/
theorem sha256_of_titles_amended :
    (∀ l1 l2 : List String, l1 = l2 → sha256_of_titles l1 = sha256_of_titles l2) ∧
    (∀ l1 l2 : List String, newline_free l1 = true → newline_free l2 = true →
      l1 ≠ l2 → fingerprint_input l1 ≠ fingerprint_input l2) := by
  constructor
  · intro l1 l2 h
    rw [h]
  · intro l1 l2 h1 h2 hne h
    exact hne (fingerprint_input_inj l1 l2 h1 h2 h)

/-- Witness for the amended **C4** theorem at concrete corpora. -/
theorem sha256_of_titles_amended_witness :
    sha256_of_titles ["x"] = sha256_of_titles ["x"] ∧
    (newline_free ["x"] = true ∧ newline_free ["y"] = true ∧
      (["x"] : List String) ≠ ["y"] ∧
      fingerprint_input ["x"] ≠ fingerprint_input ["y"]) :=
  ⟨sha256_of_titles_amended.1 ["x"] ["x"] rfl,
   by decide, by decide, by decide,
   sha256_of_titles_amended.2 ["x"] ["y"] (by decide) (by decide) (by decide)⟩

/-- **C2**: embedding-cache validity.  With a cached matrix whose readable
metadata matches the current corpus fingerprint and requested model and no
force flag, the service is not invoked and the cached matrix (with its saved
metadata) is returned unchanged; if the stored fingerprint differs, or the
stored model differs, or no readable metadata exists, or force is set, the
service is invoked and both cache files are rewritten. -/
theorem get_embeddings_cache_policy (titles : List String) (year : Int)
    (model url : String) (disk : EmbedDisk) (service : List (List Int)) :
    (∀ emb saved, disk.embFile = some emb → disk.metaFile = some (some saved) →
      saved.corpus_hash = sha256_of_titles titles → saved.model = model →
      get_embeddings titles year model url false disk service = (emb, saved, disk, false)) ∧
    (∀ force saved, disk.metaFile = some (some saved) →
      saved.corpus_hash ≠ sha256_of_titles titles →
      get_embeddings titles year model url force disk service
        = embed_recomputed titles year model url service) ∧
    (∀ force saved, disk.metaFile = some (some saved) → saved.model ≠ model →
      get_embeddings titles year model url force disk service
        = embed_recomputed titles year model url service) ∧
    (∀ force, disk.metaFile = none ∨ disk.metaFile = some none →
      get_embeddings titles year model url force disk service
        = embed_recomputed titles year model url service) ∧
    (get_embeddings titles year model url true disk service
      = embed_recomputed titles year model url service) := by
  obtain ⟨embF, metaF⟩ := disk
  refine ⟨?_, ?_, ?_, ?_, ?_⟩
  · intro emb saved h1 h2 h3 h4
    simp only at h1 h2
    subst h1; subst h2
    simp [get_embeddings, h3, h4]
  · intro force saved h2 hne
    simp only at h2
    subst h2
    cases embF <;> cases force <;>
      simp [get_embeddings, embed_recomputed, hne]
  · intro force saved h2 hne
    simp only at h2
    subst h2
    cases embF <;> cases force <;>
      simp [get_embeddings, embed_recomputed, hne]
  · intro force h2
    rcases h2 with h2 | h2 <;> (simp only at h2; subst h2) <;>
      cases embF <;> cases force <;>
      simp [get_embeddings, embed_recomputed]
  · cases embF <;> cases metaF <;>
      simp [get_embeddings, embed_recomputed]

/-- Witness for the cache-hit branch of the **C2** theorem at a concrete
disk state whose stored metadata matches the current corpus and model. -/
theorem get_embeddings_cache_policy_witness :
    get_embeddings ["t"] 2025 "m" "u" false
        ⟨some [[1, 2]], some (some ⟨2025, "m", "u", sha256_of_titles ["t"], 1⟩)⟩ [[3, 4]]
      = ([[1, 2]], ⟨2025, "m", "u", sha256_of_titles ["t"], 1⟩,
         ⟨some [[1, 2]], some (some ⟨2025, "m", "u", sha256_of_titles ["t"], 1⟩)⟩, false) :=
  (get_embeddings_cache_policy ["t"] 2025 "m" "u"
      ⟨some [[1, 2]], some (some ⟨2025, "m", "u", sha256_of_titles ["t"], 1⟩)⟩ [[3, 4]]).1
    [[1, 2]] ⟨2025, "m", "u", sha256_of_titles ["t"], 1⟩ rfl rfl rfl rfl

/-- **C1** counterexample: with resume on and no force flag, the stored 2-D
projection `[[1]]` is reused unchanged whether the current embeddings would
yield projection `[[2]]` or `[[9]]`: the reduction/clustering cache gate of
`main` consults only file presence and the resume/force flags, so an
artifact's mere presence on disk does suffice, and no recorded provenance
is re-validated against the current embedding identity (none is even
stored). -/
theorem stage_cache_reuse_cex :
    stage_cache_step true false (some [[(1 : Int)]]) [[2]] = ([[1]], some [[1]], true) ∧
    stage_cache_step true false (some [[(1 : Int)]]) [[9]] = ([[1]], some [[1]], true) :=
  ⟨rfl, rfl⟩

/-- **C1** (amended): the Reduction Stage and each Clustering Stage reuse a
cached artifact exactly when resume is on, the artifact file exists, and the
stage's force flag is off; no provenance is recorded or checked for these
artifacts (only the Embedding stage validates provenance), so presence alone
decides and the same cached value is reused regardless of what the current
inputs would produce. -/
theorem stage_cache_amended :
    (∀ (α : Type) (resume force : Bool) (disk : Option α) (computed : α),
      (stage_cache_step resume force disk computed).2.2
        = (resume && !force && disk.isSome)) ∧
    (∀ (α : Type) (computed v : α),
      stage_cache_step true false (some v) computed = (v, some v, true)) := by
  constructor
  · intro α resume force disk computed
    cases disk <;> cases resume <;> cases force <;> rfl
  · intro α computed v
    rfl

/-- Fold invariant for the candidate loop of `pick_kmeans_k`: the best score
never decreases; if the best pair ever changed, the final best is a valid
candidate of the list whose scoring genuinely succeeded with the recorded
score; and the final best score dominates the effective score of every valid
candidate of the list. -/
theorem pick_fold_inv (n : Nat) (score : Nat → Option ℚ) :
    ∀ (l : List Nat) (init : Nat × ℚ), -1 ≤ init.2 →
    init.2 ≤ (l.foldl (pick_step n score) init).2 ∧
    (l.foldl (pick_step n score) init = init ∨
      ((l.foldl (pick_step n score) init).1 ∈ l ∧
       1 < (l.foldl (pick_step n score) init).1 ∧
       (l.foldl (pick_step n score) init).1 < n ∧
       score (l.foldl (pick_step n score) init).1
         = some (l.foldl (pick_step n score) init).2)) ∧
    (∀ k ∈ l, 1 < k → k < n →
      (score k).getD (-1) ≤ (l.foldl (pick_step n score) init).2) := by
  intro l
  induction l with
  | nil =>
    intro init h
    refine ⟨le_refl _, Or.inl rfl, ?_⟩
    intro k hk
    simp at hk
  | cons a l ih =>
    intro init h
    by_cases hskip : a ≤ 1 ∨ n ≤ a
    · have hstep : pick_step n score init a = init := by
        simp [pick_step, hskip]
      obtain ⟨ih1, ih2, ih3⟩ := ih init h
      rw [List.foldl_cons, hstep]
      refine ⟨ih1, ?_, ?_⟩
      · rcases ih2 with h2 | ⟨hm, hx, hy, hz⟩
        · exact Or.inl h2
        · exact Or.inr ⟨List.mem_cons_of_mem a hm, hx, hy, hz⟩
      · intro k hk hk1 hkn
        rcases List.mem_cons.mp hk with rfl | hk
        · exact absurd hskip (by omega)
        · exact ih3 k hk hk1 hkn
    · by_cases hlt : init.2 < (score a).getD (-1)
      · have hstep : pick_step n score init a = (a, (score a).getD (-1)) := by
          simp [pick_step, hskip, hlt]
        have hsome : score a = some ((score a).getD (-1)) := by
          cases hsa : score a with
          | none =>
            exfalso
            rw [hsa] at hlt
            simp at hlt
            exact absurd (lt_of_le_of_lt h hlt) (lt_irrefl _)
          | some v => simp
        have h' : (-1 : ℚ) ≤ (a, (score a).getD (-1)).2 :=
          le_of_lt (lt_of_le_of_lt h hlt)
        obtain ⟨ih1, ih2, ih3⟩ := ih (a, (score a).getD (-1)) h'
        rw [List.foldl_cons, hstep]
        refine ⟨le_trans (le_of_lt hlt) ih1, ?_, ?_⟩
        · rcases ih2 with h2 | ⟨hm, hx, hy, hz⟩
          · rw [h2]
            exact Or.inr ⟨List.mem_cons_self a l, by omega, by omega, hsome⟩
          · exact Or.inr ⟨List.mem_cons_of_mem a hm, hx, hy, hz⟩
        · intro k hk hk1 hkn
          rcases List.mem_cons.mp hk with rfl | hk
          · exact ih1
          · exact ih3 k hk hk1 hkn
      · have hstep : pick_step n score init a = init := by
          simp only [pick_step]
          rw [if_neg hskip, if_neg hlt]
        obtain ⟨ih1, ih2, ih3⟩ := ih init h
        rw [List.foldl_cons, hstep]
        refine ⟨ih1, ?_, ?_⟩
        · rcases ih2 with h2 | ⟨hm, hx, hy, hz⟩
          · exact Or.inl h2
          · exact Or.inr ⟨List.mem_cons_of_mem a hm, hx, hy, hz⟩
        · intro k hk hk1 hkn
          rcases List.mem_cons.mp hk with rfl | hk
          · exact le_trans (le_of_not_lt hlt) ih1
          · exact ih3 k hk hk1 hkn

/-- **C6** counterexample: with `n = 100` and candidates `[4, 7]`,
candidate 4's scoring fails while candidate 7 scores successfully (with the
worst possible silhouette value `-1.0`); since a failed candidate is scored
`-1.0` and the comparison is strict, the initial `best_k = candidates[0]`
is never displaced and the failed candidate 4 is selected even though a
scorable candidate exists. -/
theorem pick_kmeans_k_cex :
    pick_kmeans_k 100 cex_score [4, 7] = 4 ∧
    cex_score 4 = none ∧ cex_score 7 = some (-1) := by
  refine ⟨?_, rfl, rfl⟩
  decide

/-- **C6** (amended): a candidate whose scoring fails is scored `-1.0` (the
worst possible silhouette value); whenever some candidate is valid
(`1 < k < n`) and scores strictly above `-1`, the selected k is a valid
candidate whose scoring genuinely succeeded — in particular no failed
candidate is selected in that case.  (If no valid candidate scores above
`-1`, the code falls back to `candidates[0]`, which may have failed or been
skipped.) -/
theorem pick_kmeans_k_scored (n : Nat) (score : Nat → Option ℚ) (candidates : List Nat)
    (h : ∃ k ∈ candidates, 1 < k ∧ k < n ∧ ∃ v, score k = some v ∧ -1 < v) :
    pick_kmeans_k n score candidates ∈ candidates ∧
    1 < pick_kmeans_k n score candidates ∧
    pick_kmeans_k n score candidates < n ∧
    ∃ v, score (pick_kmeans_k n score candidates) = some v := by
  obtain ⟨k, hk, hk1, hkn, v, hv, hvgt⟩ := h
  obtain ⟨h1, h2, h3⟩ :=
    pick_fold_inv n score candidates (candidates.headD 0, -1) (le_refl _)
  have hvle : v ≤ (candidates.foldl (pick_step n score) (candidates.headD 0, -1)).2 := by
    have := h3 k hk hk1 hkn
    rw [hv] at this
    simpa using this
  rcases h2 with heq | ⟨hm, hx, hy, hz⟩
  · exfalso
    rw [heq] at hvle
    simp at hvle
    exact absurd (lt_of_lt_of_le hvgt hvle) (lt_irrefl _)
  · exact ⟨hm, hx, hy, _, hz⟩

/-- Witness for the amended **C6** theorem at a concrete oracle. -/
theorem pick_kmeans_k_scored_witness :
    pick_kmeans_k 100 wit_score6 [5, 8] ∈ [5, 8] ∧
    1 < pick_kmeans_k 100 wit_score6 [5, 8] ∧
    pick_kmeans_k 100 wit_score6 [5, 8] < 100 ∧
    ∃ v, wit_score6 (pick_kmeans_k 100 wit_score6 [5, 8]) = some v :=
  pick_kmeans_k_scored 100 wit_score6 [5, 8]
    ⟨8, by decide, by decide, by decide, 1, rfl, by decide⟩

/-- Every valid candidate of the list scoring strictly below `s` keeps the
running best score strictly below `s`. -/
theorem pick_fold_lt (n : Nat) (score : Nat → Option ℚ) (s : ℚ) :
    ∀ (l : List Nat) (init : Nat × ℚ), init.2 < s →
    (∀ k ∈ l, 1 < k → k < n → (score k).getD (-1) < s) →
    (l.foldl (pick_step n score) init).2 < s := by
  intro l
  induction l with
  | nil => intro init h _; exact h
  | cons a l ih =>
    intro init h hall
    rw [List.foldl_cons]
    by_cases hskip : a ≤ 1 ∨ n ≤ a
    · rw [show pick_step n score init a = init by simp [pick_step, hskip]]
      exact ih init h (fun k hk => hall k (List.mem_cons_of_mem a hk))
    · by_cases hlt : init.2 < (score a).getD (-1)
      · rw [show pick_step n score init a = (a, (score a).getD (-1)) by
          simp [pick_step, hskip, hlt]]
        refine ih _ ?_ (fun k hk => hall k (List.mem_cons_of_mem a hk))
        exact hall a (List.mem_cons_self a l) (by omega) (by omega)
      · rw [show pick_step n score init a = init by
          simp only [pick_step]
          rw [if_neg hskip, if_neg hlt]]
        exact ih init h (fun k hk => hall k (List.mem_cons_of_mem a hk))

/-- If no valid candidate of the list beats the running best strictly, the
fold keeps the best pair unchanged (the strict `>` keeps the earliest). -/
theorem pick_fold_keep (n : Nat) (score : Nat → Option ℚ) :
    ∀ (l : List Nat) (best : Nat × ℚ),
    (∀ k ∈ l, 1 < k → k < n → (score k).getD (-1) ≤ best.2) →
    l.foldl (pick_step n score) best = best := by
  intro l
  induction l with
  | nil => intro best _; rfl
  | cons a l ih =>
    intro best hall
    rw [List.foldl_cons]
    by_cases hskip : a ≤ 1 ∨ n ≤ a
    · rw [show pick_step n score best a = best by simp [pick_step, hskip]]
      exact ih best (fun k hk => hall k (List.mem_cons_of_mem a hk))
    · have hle : (score a).getD (-1) ≤ best.2 :=
        hall a (List.mem_cons_self a l) (by omega) (by omega)
      rw [show pick_step n score best a = best by
        simp only [pick_step]
        rw [if_neg hskip, if_neg (not_lt.mpr hle)]]
      exact ih best (fun k hk => hall k (List.mem_cons_of_mem a hk))

/-- **C7**: tie-break of the partition-based k-selection.  Over an
ascending (sorted, duplicate-free) candidate list, when two valid
candidates `k1 < k2` both attain the best score `s` (every other valid
candidate scoring strictly below `s`, and `s` above the `-1.0` sentinel),
the smaller candidate `k1` is selected: the strict `>` comparison keeps the
earliest best. -/
theorem pick_kmeans_k_tiebreak (n : Nat) (score : Nat → Option ℚ)
    (candidates : List Nat) (k1 k2 : Nat) (s : ℚ)
    (hsort : candidates.Pairwise (· < ·))
    (hk1 : k1 ∈ candidates) (hk2 : k2 ∈ candidates) (hlt : k1 < k2)
    (hv1 : 1 < k1) (hn1 : k1 < n) (hv2 : 1 < k2) (hn2 : k2 < n)
    (hs1 : score k1 = some s) (hs2 : score k2 = some s) (hgt : -1 < s)
    (hmax : ∀ k ∈ candidates, k ≠ k1 → k ≠ k2 → 1 < k → k < n →
      (score k).getD (-1) < s) :
    pick_kmeans_k n score candidates = k1 := by
  obtain ⟨pre, post, hsplit⟩ := List.append_of_mem hk1
  subst hsplit
  obtain ⟨hpre, hcons, hcross⟩ := List.pairwise_append.mp hsort
  have hk1post : ∀ b ∈ post, k1 < b := (List.pairwise_cons.mp hcons).1
  unfold pick_kmeans_k
  rw [List.foldl_append, List.foldl_cons]
  have hr1 : ((pre.foldl (pick_step n score) ((pre ++ k1 :: post).headD 0, -1))).2 < s := by
    refine pick_fold_lt n score s pre _ hgt ?_
    intro k hkpre hka hkb
    have hkk1 : k < k1 := hcross k hkpre k1 (List.mem_cons_self k1 post)
    refine hmax k (List.mem_append_left _ hkpre) (by omega) (by omega) hka hkb
  have hstep : pick_step n score
      (pre.foldl (pick_step n score) ((pre ++ k1 :: post).headD 0, -1)) k1
      = (k1, s) := by
    simp only [pick_step, hs1, Option.getD_some]
    rw [if_neg (show ¬(k1 ≤ 1 ∨ n ≤ k1) by omega), if_pos hr1]
  rw [hstep]
  have hkeep : post.foldl (pick_step n score) (k1, s) = (k1, s) := by
    refine pick_fold_keep n score post (k1, s) ?_
    intro k hkpost hka hkb
    by_cases hkk2 : k = k2
    · subst hkk2
      rw [hs2]
      simp
    · have hkk1 : k1 < k := hk1post k hkpost
      exact le_of_lt (hmax k (List.mem_append_right _ (List.mem_cons_of_mem k1 hkpost))
        (by omega) hkk2 hka hkb)
  rw [hkeep]

/-- Witness for the **C7** tie-break theorem: identical scores `1/2` for
8 and 12 over sorted candidates `[5, 8, 12]` select `8`. -/
theorem pick_kmeans_k_tiebreak_witness :
    pick_kmeans_k 100 tie_score [5, 8, 12] = 8 :=
  pick_kmeans_k_tiebreak 100 tie_score [5, 8, 12] 8 12 1
    (by decide) (by decide) (by decide) (by decide) (by decide) (by decide)
    (by decide) (by decide) rfl rfl (by decide) (by decide)

/-- Every summary produced by `summarize_clusters` has a non-empty prompt
title list: its cluster id is drawn from `labels`, so the index list is
non-empty and so is its (truncated) title list. -/
theorem prompt_titles_ne_nil (records : List Record) (labels : List Int)
    (s : Summary) (hs : s ∈ summarize_clusters records labels) :
    (prompt_titles records labels s.cluster).isEmpty = false := by
  unfold summarize_clusters at hs
  obtain ⟨cid, hcid, hsome⟩ := List.mem_filterMap.mp hs
  by_cases hemp : (cluster_indices labels cid).isEmpty
  · simp [hemp] at hsome
  · simp only [hemp, Bool.false_eq_true, if_false, Option.some.injEq] at hsome
    have hc : s.cluster = cid := by rw [← hsome]
    unfold prompt_titles
    rw [hc]
    cases hci : cluster_indices labels cid with
    | nil => rw [hci] at hemp; simp at hemp
    | cons i is => simp

/-- Characterization of the per-cluster loop of `add_llm_summaries` when
every summary has a non-empty prompt title list: the final document is the
pointwise update of the input summaries (stored non-empty keywords kept
verbatim, all others set from one language-model request), and the
requested clusters are exactly those without non-empty stored keywords. -/
theorem add_llm_fold (records : List Record) (labels : List Int)
    (existing : List (Int × List String)) (llm : List String → List String) :
    ∀ (l : List Summary) (acc : List Summary × List Int),
    (∀ s ∈ l, (prompt_titles records labels s.cluster).isEmpty = false) →
    l.foldl (add_llm_step records labels existing llm) acc
      = (acc.1 ++ l.map (fun s =>
          if has_stored_keywords existing s.cluster then
            { s with llm_keywords := existing.lookup s.cluster }
          else
            { s with llm_keywords := some (llm (prompt_titles records labels s.cluster)) }),
         acc.2 ++ (l.filter (fun s => !(has_stored_keywords existing s.cluster))).map
           Summary.cluster) := by
  intro l
  induction l with
  | nil => intro acc _; simp
  | cons s l ih =>
    intro acc hall
    have hs : (prompt_titles records labels s.cluster).isEmpty = false :=
      hall s (List.mem_cons_self s l)
    rw [List.foldl_cons]
    by_cases hk : has_stored_keywords existing s.cluster
    · have hstep : add_llm_step records labels existing llm acc s
          = (acc.1 ++ [{ s with llm_keywords := existing.lookup s.cluster }], acc.2) := by
        simp [add_llm_step, hk]
      rw [hstep, ih _ (fun x hx => hall x (List.mem_cons_of_mem s hx))]
      simp [hk, List.filter_cons]
    · have hstep : add_llm_step records labels existing llm acc s
          = (acc.1 ++ [{ s with
              llm_keywords := some (llm (prompt_titles records labels s.cluster)) }],
             acc.2 ++ [s.cluster]) := by
        simp [add_llm_step, hk, hs]
      rw [hstep, ih _ (fun x hx => hall x (List.mem_cons_of_mem s hx))]
      simp [hk, List.filter_cons]

/-- **C3**: resumed labeling over a stored summary document.  With
summaries built by `summarize_clusters` from the current records and
labels, a language-model request is issued exactly for the clusters whose
stored entry lacks a non-empty keyword list (in ascending order), and every
cluster with non-empty stored keywords keeps exactly those stored keywords
in the final document, the others receiving the response of their one
request. -/
theorem add_llm_summaries_resume (records : List Record) (labels : List Int)
    (items : List StoredItem) (llm : List String → List String) :
    (add_llm_summaries records labels (summarize_clusters records labels)
        true (some items) llm).2
      = ((summarize_clusters records labels).filter (fun s =>
          !(has_stored_keywords (existing_of true (some items)) s.cluster))).map
          Summary.cluster ∧
    (add_llm_summaries records labels (summarize_clusters records labels)
        true (some items) llm).1
      = (summarize_clusters records labels).map (fun s =>
          if has_stored_keywords (existing_of true (some items)) s.cluster then
            { s with llm_keywords := (existing_of true (some items)).lookup s.cluster }
          else
            { s with llm_keywords := some (llm (prompt_titles records labels s.cluster)) }) := by
  have h := add_llm_fold records labels (existing_of true (some items)) llm
    (summarize_clusters records labels) ([], [])
    (fun s hs => prompt_titles_ne_nil records labels s hs)
  unfold add_llm_summaries
  rw [h]
  simp

theorem set_eq_int_iff (a b : List Int) :
    set_eq_int a b = true ↔ ∀ x : Int, x ∈ a ↔ x ∈ b := by
  simp only [set_eq_int, Bool.and_eq_true, List.all_eq_true]
  constructor
  · rintro ⟨h1, h2⟩ x
    constructor
    · intro hx
      simpa using h1 x hx
    · intro hx
      simpa using h2 x hx
  · intro h
    constructor
    · intro x hx
      simpa using (h x).mp hx
    · intro x hx
      simpa using (h x).mpr hx

/-- **C5**: the stage-completeness check returns false whenever the set of
cluster ids recorded in the stored document differs from the set of cluster
ids of the current Label Assignment (whatever the keyword state), and when
labeling was requested it additionally returns false whenever some stored
entry's keyword list is empty or missing. -/
theorem is_summary_complete_spec :
    (∀ (data : List StoredItem) (labels : List Int) (require_llm : Bool),
      ¬ (∀ x : Int, x ∈ data.filterMap StoredItem.cluster ↔ x ∈ labels) →
      is_summary_complete (some data) labels require_llm = false) ∧
    (∀ (data : List StoredItem) (labels : List Int),
      (∃ d ∈ data, (d.llm_keywords.getD []).isEmpty = true) →
      is_summary_complete (some data) labels true = false) := by
  constructor
  · intro data labels require_llm h
    have hne : set_eq_int (data.filterMap StoredItem.cluster) labels = false := by
      cases hse : set_eq_int (data.filterMap StoredItem.cluster) labels
      · rfl
      · exact absurd ((set_eq_int_iff _ _).mp hse) h
    unfold is_summary_complete
    by_cases hdata : data.isEmpty
    · simp [hdata]
    · simp [hdata, hne]
  · intro data labels h
    obtain ⟨d, hd, hkw⟩ := h
    have hdata : data.isEmpty = false := by
      cases data
      · simp at hd
      · rfl
    have hallf : data.all (fun d => !((d.llm_keywords.getD []).isEmpty)) = false := by
      cases hall : data.all (fun d => !((d.llm_keywords.getD []).isEmpty))
      · rfl
      · exfalso
        have h2 := List.all_eq_true.mp hall d hd
        rw [hkw] at h2
        simp at h2
    by_cases hse : set_eq_int (data.filterMap StoredItem.cluster) labels
    · simp [is_summary_complete, hdata, hse, hallf]
    · simp [is_summary_complete, hdata, hse]

/-- Witness for **C5** at concrete stored documents: a document whose
cluster-id set `{0}` differs from the label set `{0, 1}` is incomplete even
with keywords present; a document with an empty keyword list is incomplete
when labeling is requested. -/
theorem is_summary_complete_spec_witness :
    is_summary_complete (some [⟨some 0, some ["a"]⟩]) [0, 1] true = false ∧
    is_summary_complete (some [⟨some 0, some []⟩]) [0] true = false :=
  ⟨is_summary_complete_spec.1 [⟨some 0, some ["a"]⟩] [0, 1] true (by
      intro h
      have h1 := (h 1).mpr (by simp)
      revert h1
      decide),
   is_summary_complete_spec.2 [⟨some 0, some []⟩] [0]
     ⟨⟨some 0, some []⟩, by simp, by simp⟩⟩

/-- **C9** (code bug): the keyword extractor cannot recover a JSON array
surrounded by prose — the two extraction regexes are written with doubled
backslashes inside raw strings and so never match backslash-free text — so
the prose-wrapped response below yields `[]` where the spec expects
`["AI", "ML"]`; a purely fenced or bare array still parses, and fully
unparseable text yields `[]` without an error. -/
theorem extract_json_array_bug :
    extract_json_array "Here are the keywords: [\"AI\", \"ML\"]. Enjoy!" = [] ∧
    extract_json_array "```json\n[\"AI\", \"ML\"]\n```" = ["AI", "ML"] ∧
    extract_json_array "not json at all" = [] := by
  refine ⟨?_, ?_, ?_⟩ <;> decide

/-- **C10**: the per-record output document contains exactly
`min(len(records), len(labels), len(umap_2d))` entries — a label array or
2-D projection shorter than the record list silently truncates the
per-record output rather than being rejected. -/
theorem write_outputs_length (records : List Record) (labels : List Int)
    (umap_2d : List (ℚ × ℚ)) :
    (write_outputs_items records labels umap_2d).length
      = min records.length (min labels.length umap_2d.length) := by
  simp [write_outputs_items]

end Clustering
